import Mathlib

/-!
Verification of the Marigold dataset-preparation scripts:
`script/tools/make_normals_dataset.py` (the sample grouper and splitter) and
`script/tools/verify_split_leakage.py` (the leakage verifier), together with
the normal-map normalization routine described in the design document.

Strings are modelled through their character lists (`String.data`); paths use
forward slashes, as the scripts normalize separators to `/`.
-/

/-- Lexicographic comparison of character lists by code points, the order
Python uses to compare strings. -/
def lexLe : List Char → List Char → Bool
  | [], _ => true
  | _ :: _, [] => false
  | a :: as, b :: bs => if a = b then lexLe as bs else decide (a < b)

/-- `strLeb a b` holds when `a ≤ b` in Python string order. -/
def strLeb (a b : String) : Bool := lexLe a.data b.data

/-- Insert a string into a list, in front of the first element it compares
`≤` to: one step of the comparison sort modelling `sorted(...)`. -/
def insertSorted (a : String) : List String → List String
  | [] => [a]
  | b :: bs => if strLeb a b then a :: b :: bs else b :: insertSorted a bs

/-- Model of Python `sorted(...)` on strings: an insertion sort by `strLeb`. -/
def sortStrings : List String → List String
  | [] => []
  | a :: as => insertSorted a (sortStrings as)

/-- `os.path.basename` on character lists: everything after the last `/`
(the whole list when there is no `/`). -/
def basenameChars (s : List Char) : List Char :=
  ((s.reverse).takeWhile (fun c => c ≠ '/')).reverse

/-- The trailing-underscore cut `s.rsplit('_', 1)[0]` used by both scripts:
everything before the last underscore, or the whole list when there is no
underscore. -/
def cutLastUnderscore (s : List Char) : List Char :=
  match (s.reverse).dropWhile (fun c => c ≠ '_') with
  | [] => s
  | _ :: rest => rest.reverse

/-- `os.path.splitext(...)[0]` on a basename: drop the extension that starts
at the last dot, unless every character before that last dot is itself a dot
(Python keeps names such as `.bashrc` whole). -/
def removeExtChars (s : List Char) : List Char :=
  match (s.reverse).dropWhile (fun c => c ≠ '.') with
  | [] => s
  | _ :: rest => if rest.any (fun c => c ≠ '.') then rest.reverse else s

/-- `extract_sample_name` from `make_normals_dataset.py`: take the basename of
the stem, then everything before the last underscore; when the basename has
no underscore, return the whole basename. -/
def extract_sample_name (stem : String) : String :=
  ⟨cutLastUnderscore (basenameChars stem.data)⟩

/-- `extract_sample_name` from `verify_split_leakage.py`: basename, then drop
the extension, then the trailing-underscore rule. -/
def verifyExtractSampleName (p : String) : String :=
  ⟨cutLastUnderscore (removeExtChars (basenameChars p.data))⟩

/-- The sample-identity rule exactly as §3 of the spec words it, applied to
the whole stem: split on the last underscore, with no basename step. Kept
separate so the spec sentence can be compared with the code rule. -/
def specSampleIdentity (stem : String) : String :=
  ⟨cutLastUnderscore stem.data⟩

example : extract_sample_name "3192_010" = "3192" := by decide
example : extract_sample_name "3192_005" = "3192" := by decide
example : extract_sample_name "4201" = "4201" := by decide
example : extract_sample_name "input/3192_010" = "3192" := by decide
example : verifyExtractSampleName "input/3192_010.png" = "3192" := by decide
example : specSampleIdentity "a/b_1" = "a/b" := by decide
example : extract_sample_name "a/b_1" = "b" := by decide
example : sortStrings ["b", "a", "c"] = ["a", "b", "c"] := by decide

/-- A matched pair record: `(rgb_rel, normal_rel)`. -/
abbrev Pair := String × String

/-- One `sample_groups[sample_name].append(pair)` step on the insertion-ordered
association list modelling the Python dict `sample_groups`: append to the
existing group of key `k`, or add a new group at the end. -/
def insertGroup : List (String × List Pair) → String → Pair → List (String × List Pair)
  | [], k, p => [(k, [p])]
  | (q, ps) :: rest, k, p =>
    if q = k then (q, ps ++ [p]) :: rest else (q, ps) :: insertGroup rest k p

/-- The grouping loop of `make_normals_dataset.main`: walk the stems in order,
append each stem's pair to the group of its sample name. `f` builds the pair
record of a stem (the `rgb_rel`/`normal_rel` construction from the two maps). -/
def buildGroupsAux (f : String → Pair) :
    List String → List (String × List Pair) → List (String × List Pair)
  | [], acc => acc
  | s :: rest, acc => buildGroupsAux f rest (insertGroup acc (extract_sample_name s) (f s))

/-- `sample_groups` built from the (sorted) common stems. -/
def buildGroups (stems : List String) (f : String → Pair) : List (String × List Pair) :=
  buildGroupsAux f stems []

/-- `sample_groups[s]` for a key that is present (`[]` otherwise; `main` only
looks keys up that are present). -/
def groupVal : List (String × List Pair) → String → List Pair
  | [], _ => []
  | (q, ps) :: rest, s => if q = s then ps else groupVal rest s

/-- One step of the modelled pseudo-random generator of Python's `random`
module. The exact Mersenne-Twister stream is not reproduced; the model is a
deterministic congruential generator, which carries everything the scripts
rely on: a state advanced deterministically from the seed. -/
def lcgNext (g : Nat) : Nat :=
  (6364136223846793005 * g + 1442695040888963407) % 18446744073709551616

/-- `random.seed(seed)`: the generator state is reset to a function of the
seed alone, discarding whatever state the module held before. -/
def seedGen (seed : Int) : Nat := lcgNext seed.natAbs

/-- `drawGo fuel g l k` draws `k` elements from `l` without replacement:
each step advances the generator, picks the element at the drawn index and
removes it from the pool. With `fuel ≥ l.length` the fuel never runs out.
`random.shuffle` is the draw of all elements, `random.sample` the draw of
`k` elements. -/
def drawGo {α : Type} : Nat → Nat → List α → Nat → List α × Nat
  | _, g, _, 0 => ([], g)
  | 0, g, _, _ + 1 => ([], g)
  | _ + 1, g, [], _ + 1 => ([], g)
  | fuel + 1, g, x :: xs, k + 1 =>
    let g1 := lcgNext g
    let j := g1 % (xs.length + 1)
    let picked := (x :: xs).getD j x
    let rest := (x :: xs).take j ++ (x :: xs).drop (j + 1)
    let res := drawGo fuel g1 rest k
    (picked :: res.1, res.2)

/-- `random.shuffle(l)` under generator state `g`: the shuffled list and the
generator state afterwards. -/
def shuffleList {α : Type} (g : Nat) (l : List α) : List α × Nat :=
  drawGo l.length g l l.length

/-- `random.sample(l, k)` under generator state `g`: `k` elements drawn
without replacement, and the generator state afterwards. -/
def sampleList {α : Type} (g : Nat) (l : List α) (k : Nat) : List α × Nat :=
  drawGo l.length g l k

/-- `sorted(set(...))`: the distinct matched stems in sorted order
(`common_stems` in `main`). -/
def commonSortedStems (stems : List String) : List String :=
  sortStrings stems.dedup

/-- `sample_names` before the shuffle: the distinct sample names of the
grouped pairs, sorted. -/
def identityList (common : List String) (f : String → Pair) : List String :=
  sortStrings ((buildGroups common f).map Prod.fst)

/-- `sample_names` after `random.seed(seed); random.shuffle(sample_names)`. -/
def shuffledNames (common : List String) (f : String → Pair) (seed : Int) : List String :=
  (shuffleList (seedGen seed) (identityList common f)).1

/-- The generator state right after the shuffle, consumed by the
visualization draw. -/
def postShuffleState (common : List String) (f : String → Pair) (seed : Int) : Nat :=
  (shuffleList (seedGen seed) (identityList common f)).2

/-- The outputs of one run of the splitter. -/
structure SplitResult where
  trainPairs : List Pair
  valPairs : List Pair
  testPairs : List Pair
  visPairs : List Pair
  trainNames : List String
  valNames : List String
  testNames : List String
  nSamples : Nat
deriving Repr, DecidableEq

/-- Lines 144–190 of `make_normals_dataset.main`: group the sorted common
stems by sample name, sort and shuffle the sample names, slice them into
test/val/train by the truncated ratio counts, concatenate each slice's
groups, and draw the visualization subset from the validation pairs with the
same generator. `v` and `t` are `val_ratio` and `test_ratio` as exact
rationals; `int(n * ratio)` is the floor, both factors being nonnegative. -/
def splitCore (common : List String) (f : String → Pair) (v t : ℚ) (seed : Int) :
    SplitResult :=
  let groups := buildGroups common f
  let names := shuffledNames common f seed
  let n := names.length
  let nTest := (⌊(n : ℚ) * t⌋).toNat
  let nVal := (⌊(n : ℚ) * v⌋).toNat
  let testNames := names.take nTest
  let valNames := (names.drop nTest).take nVal
  let trainNames := names.drop (nTest + nVal)
  let testPairs := testNames.flatMap (fun s => groupVal groups s)
  let valPairs := valNames.flatMap (fun s => groupVal groups s)
  let trainPairs := trainNames.flatMap (fun s => groupVal groups s)
  let nVis := min 20 valPairs.length
  let visPairs := (sampleList (postShuffleState common f seed) valPairs nVis).1
  ⟨trainPairs, valPairs, testPairs, visPairs, trainNames, valNames, testNames, n⟩

/-- The two fatal early exits of `make_normals_dataset.main` that depend on
the split inputs (the missing-directory exits precede them and concern the
filesystem only). -/
inductive SplitError
  | ConfigurationError
  | EmptyInputError
deriving Repr, DecidableEq

/-- `make_normals_dataset.main` from the ratio validation on, as a function
of the matched stems, the pair construction, the ratios, the seed, and `g0`,
the process-wide generator state the `random` module held before the run.
`g0` is discarded by `random.seed(args.seed)`, which is why it does not
appear in the body. The ratio check (line 124) precedes the empty-input
check (line 138). -/
def runSplit (g0 : Nat) (stems : List String) (f : String → Pair) (v t : ℚ)
    (seed : Int) : Except SplitError SplitResult :=
  if v < 0 ∨ t < 0 ∨ 1 ≤ v + t then .error .ConfigurationError
  else if commonSortedStems stems = [] then .error .EmptyInputError
  else .ok (splitCore (commonSortedStems stems) f v t seed)

/-- The split files `main` writes (lines 181–190): `train.txt` and `val.txt`
always, `test.txt` only when the test list is non-empty, `vis.txt` only when
the visualization subset is non-empty. -/
def writtenFiles (r : SplitResult) : List String :=
  ["train.txt", "val.txt"]
    ++ (if r.testPairs.length > 0 then ["test.txt"] else [])
    ++ (if min 20 r.valPairs.length > 0 then ["vis.txt"] else [])

/-- Python `str.strip()` on a character list (whitespace as
`Char.isWhitespace`). -/
def stripChars (s : List Char) : List Char :=
  (((s.dropWhile Char.isWhitespace).reverse).dropWhile Char.isWhitespace).reverse

/-- `line.split()[0]` of a stripped non-empty line: the first
whitespace-separated field. -/
def firstField (s : List Char) : List Char :=
  s.takeWhile (fun c => ¬ c.isWhitespace)

/-- `read_split_file` from `verify_split_leakage.py`. A file is `none` when
missing (the function then returns `[]`), otherwise its list of lines; each
line is stripped, blank lines are skipped, and the first field of every
remaining line is kept. -/
def read_split_file (content : Option (List String)) : List String :=
  match content with
  | none => []
  | some lines =>
    lines.filterMap (fun line =>
      let st := stripChars line.data
      if st = [] then none else some ⟨firstField st⟩)

/-- The distinct sample names of one split file,
`{extract_sample_name(s) for s in samples}`. -/
def splitFileNames (content : Option (List String)) : List String :=
  ((read_split_file content).map verifyExtractSampleName).dedup

/-- How a run of `verify_split_leakage.main` ends: `leakage` is `return 1`
after the overlap warnings, `ok` is `return 0` after the variation
statistics, `crash` is the uncaught `ValueError` that `max()` raises on an
empty collection in the statistics step. -/
inductive VerifyOutcome
  | leakage
  | ok
  | crash
deriving Repr, DecidableEq

/-- `verify_split_leakage.main` as a function of the three split files'
contents. The overlap checks mirror lines 84–122; the statistics step
(lines 125–132) applies `max`/`min` to the per-sample counts, which raises
when no sample at all was read. -/
def verifyMain (trainC valC testC : Option (List String)) : VerifyOutcome :=
  let trainSamples := read_split_file trainC
  let valSamples := read_split_file valC
  let testSamples := read_split_file testC
  let trainNames := splitFileNames trainC
  let valNames := splitFileNames valC
  let testNames := splitFileNames testC
  if (∃ x, x ∈ trainNames ∧ x ∈ valNames) ∨ (∃ x, x ∈ trainNames ∧ x ∈ testNames)
      ∨ (∃ x, x ∈ valNames ∧ x ∈ testNames) then
    .leakage
  else if trainSamples ++ valSamples ++ testSamples = [] then
    .crash
  else
    .ok

example : verifyMain none none none = .crash := by decide
example :
    verifyMain (some ["input/3192_010.png target/3192_010.npy"])
      (some ["input/3192_005.png target/3192_005.npy"]) none = .leakage := by decide
example :
    verifyMain (some ["input/3192_010.png target/3192_010.npy"])
      (some ["input/4201.png target/4201.npy"]) none = .ok := by decide

theorem insertSorted_perm (a : String) (l : List String) :
    (insertSorted a l).Perm (a :: l) := by
  induction l with
  | nil => simp [insertSorted]
  | cons b bs ih =>
    by_cases h : strLeb a b
    · simp [insertSorted, h]
    · simp only [insertSorted, h, if_false, Bool.false_eq_true]
      exact (ih.cons b).trans (List.Perm.swap a b bs)

theorem sortStrings_perm (l : List String) : (sortStrings l).Perm l := by
  induction l with
  | nil => simp [sortStrings]
  | cons a as ih => exact (insertSorted_perm a (sortStrings as)).trans (ih.cons a)

theorem groupVal_insertGroup (acc : List (String × List Pair)) (k : String) (p : Pair)
    (s : String) :
    groupVal (insertGroup acc k p) s =
      if s = k then groupVal acc s ++ [p] else groupVal acc s := by
  induction acc with
  | nil =>
    by_cases h : s = k
    · subst h; simp [insertGroup, groupVal]
    · have h2 : ¬k = s := fun hh => h hh.symm
      simp [insertGroup, groupVal, h, h2]
  | cons hd rest ih =>
    obtain ⟨q, ps⟩ := hd
    by_cases hqk : q = k
    · subst hqk
      by_cases hsq : q = s
      · subst hsq; simp [insertGroup, groupVal]
      · have h2 : ¬s = q := fun hh => hsq hh.symm
        simp [insertGroup, groupVal, hsq, h2]
    · by_cases hqs : q = s
      · subst hqs
        simp [insertGroup, groupVal, hqk]
      · simp [insertGroup, groupVal, hqk, hqs, ih]

theorem keys_insertGroup (acc : List (String × List Pair)) (k : String) (p : Pair) :
    (insertGroup acc k p).map Prod.fst =
      if k ∈ acc.map Prod.fst then acc.map Prod.fst else acc.map Prod.fst ++ [k] := by
  induction acc with
  | nil => simp [insertGroup]
  | cons hd rest ih =>
    obtain ⟨q, ps⟩ := hd
    by_cases hqk : q = k
    · subst hqk; simp [insertGroup]
    · have h2 : ¬k = q := fun hh => hqk hh.symm
      simp [insertGroup, hqk, ih, h2]
      by_cases hk : k ∈ rest.map Prod.fst <;> simp [hk, h2]

theorem groupVal_buildGroupsAux (f : String → Pair) (stems : List String)
    (acc : List (String × List Pair)) (s : String) :
    groupVal (buildGroupsAux f stems acc) s =
      groupVal acc s ++ (stems.filter (fun st => extract_sample_name st = s)).map f := by
  induction stems generalizing acc with
  | nil => simp [buildGroupsAux]
  | cons st rest ih =>
    simp only [buildGroupsAux]
    rw [ih, groupVal_insertGroup]
    by_cases h : s = extract_sample_name st
    · simp [List.filter_cons, h.symm]
    · have h2 : ¬extract_sample_name st = s := fun hh => h hh.symm
      simp [List.filter_cons, h, h2]

theorem groupVal_buildGroups (stems : List String) (f : String → Pair) (s : String) :
    groupVal (buildGroups stems f) s =
      (stems.filter (fun st => extract_sample_name st = s)).map f := by
  simpa [buildGroups, groupVal] using groupVal_buildGroupsAux f stems [] s

theorem mem_keys_buildGroupsAux (f : String → Pair) (stems : List String)
    (acc : List (String × List Pair)) (x : String) :
    x ∈ (buildGroupsAux f stems acc).map Prod.fst ↔
      x ∈ acc.map Prod.fst ∨ x ∈ stems.map extract_sample_name := by
  induction stems generalizing acc with
  | nil => simp [buildGroupsAux]
  | cons st rest ih =>
    simp only [buildGroupsAux]
    rw [ih, keys_insertGroup]
    by_cases hk : extract_sample_name st ∈ acc.map Prod.fst
    · simp only [hk, if_true, List.map_cons, List.mem_cons]
      constructor
      · rintro (h | h)
        · exact Or.inl h
        · exact Or.inr (Or.inr h)
      · rintro (h | h | h)
        · exact Or.inl h
        · exact Or.inl (h ▸ hk)
        · exact Or.inr h
    · simp only [hk, if_false, List.mem_append, List.mem_singleton, List.map_cons,
        List.mem_cons]
      tauto

theorem mem_keys_buildGroups (stems : List String) (f : String → Pair) (x : String) :
    x ∈ (buildGroups stems f).map Prod.fst ↔ x ∈ stems.map extract_sample_name := by
  simpa [buildGroups] using mem_keys_buildGroupsAux f stems [] x

theorem nodup_keys_buildGroupsAux (f : String → Pair) (stems : List String)
    (acc : List (String × List Pair)) (h : (acc.map Prod.fst).Nodup) :
    ((buildGroupsAux f stems acc).map Prod.fst).Nodup := by
  induction stems generalizing acc with
  | nil => simpa [buildGroupsAux] using h
  | cons st rest ih =>
    simp only [buildGroupsAux]
    apply ih
    rw [keys_insertGroup]
    by_cases hk : extract_sample_name st ∈ acc.map Prod.fst
    · simpa [hk] using h
    · simp [hk, List.nodup_append, h]

theorem nodup_keys_buildGroups (stems : List String) (f : String → Pair) :
    ((buildGroups stems f).map Prod.fst).Nodup := by
  apply nodup_keys_buildGroupsAux
  simp

theorem pick_cons_perm {α : Type} (l : List α) (j : Nat) (d : α) (h : j < l.length) :
    (l.getD j d :: (l.take j ++ l.drop (j + 1))).Perm l := by
  have h1 : l = l.take j ++ l.get ⟨j, h⟩ :: l.drop (j + 1) := by
    conv_lhs => rw [← List.take_append_drop j l]
    rw [List.drop_eq_getElem_cons h]
    simp
  have h2 : (l.take j ++ l.get ⟨j, h⟩ :: l.drop (j + 1)).Perm l := by rw [← h1]
  rw [List.getD_eq_getElem l d h]
  exact List.Perm.trans (List.perm_middle.symm) h2

theorem drawGo_subperm {α : Type} :
    ∀ (fuel g : Nat) (l : List α) (k : Nat), (drawGo fuel g l k).1.Subperm l := by
  intro fuel
  induction fuel with
  | zero =>
    intro g l k
    cases k <;> simp [drawGo]
  | succ fuel ih =>
    intro g l k
    cases k with
    | zero => simp [drawGo]
    | succ k =>
      cases l with
      | nil => simp [drawGo]
      | cons x xs =>
        simp only [drawGo]
        have hj : lcgNext g % (xs.length + 1) < (x :: xs).length := by
          simpa using Nat.mod_lt _ (Nat.succ_pos xs.length)
        have hperm := pick_cons_perm (x :: xs) (lcgNext g % (xs.length + 1)) x hj
        have hsub := ih (lcgNext g)
          ((x :: xs).take (lcgNext g % (xs.length + 1)) ++
            (x :: xs).drop (lcgNext g % (xs.length + 1) + 1)) k
        exact ((List.subperm_cons _).mpr hsub).trans hperm.subperm

theorem drawGo_length {α : Type} :
    ∀ (fuel g : Nat) (l : List α) (k : Nat), l.length ≤ fuel →
      (drawGo fuel g l k).1.length = min k l.length := by
  intro fuel
  induction fuel with
  | zero =>
    intro g l k hl
    have : l = [] := List.length_eq_zero.mp (Nat.le_zero.mp hl)
    subst this
    cases k <;> simp [drawGo]
  | succ fuel ih =>
    intro g l k hl
    cases k with
    | zero => simp [drawGo]
    | succ k =>
      cases l with
      | nil => simp [drawGo]
      | cons x xs =>
        simp only [drawGo]
        have hj : lcgNext g % (xs.length + 1) ≤ xs.length :=
          Nat.lt_succ_iff.mp (Nat.mod_lt _ (Nat.succ_pos xs.length))
        have hrest : ((x :: xs).take (lcgNext g % (xs.length + 1)) ++
            (x :: xs).drop (lcgNext g % (xs.length + 1) + 1)).length = xs.length := by
          simp only [List.length_append, List.length_take, List.length_drop,
            List.length_cons]
          omega
        have hfuel : ((x :: xs).take (lcgNext g % (xs.length + 1)) ++
            (x :: xs).drop (lcgNext g % (xs.length + 1) + 1)).length ≤ fuel := by
          rw [hrest]
          simpa using hl
        simp only [List.length_cons, ih _ _ _ hfuel, hrest]
        omega

theorem shuffleList_perm {α : Type} (g : Nat) (l : List α) :
    (shuffleList g l).1.Perm l := by
  have hsub := drawGo_subperm l.length g l l.length
  have hlen := drawGo_length l.length g l l.length (Nat.le_refl _)
  exact hsub.perm_of_length_le (by simp [shuffleList, hlen])

theorem sampleList_subperm {α : Type} (g : Nat) (l : List α) (k : Nat) :
    (sampleList g l k).1.Subperm l :=
  drawGo_subperm l.length g l k

theorem sampleList_length {α : Type} (g : Nat) (l : List α) (k : Nat) :
    (sampleList g l k).1.length = min k l.length :=
  drawGo_length l.length g l k (Nat.le_refl _)

theorem commonSortedStems_perm (stems : List String) :
    (commonSortedStems stems).Perm stems.dedup :=
  sortStrings_perm stems.dedup

theorem commonSortedStems_eq_nil (stems : List String) :
    commonSortedStems stems = [] ↔ stems = [] := by
  constructor
  · intro hc
    have hperm := commonSortedStems_perm stems
    rw [hc] at hperm
    exact (List.dedup_eq_nil stems).mp (hperm.symm.eq_nil)
  · intro h
    subst h
    rfl

theorem shuffledNames_perm_keys (common : List String) (f : String → Pair) (seed : Int) :
    (shuffledNames common f seed).Perm ((buildGroups common f).map Prod.fst) :=
  (shuffleList_perm _ _).trans (sortStrings_perm _)

theorem shuffledNames_nodup (common : List String) (f : String → Pair) (seed : Int) :
    (shuffledNames common f seed).Nodup :=
  (nodup_keys_buildGroups common f).perm (shuffledNames_perm_keys common f seed).symm

theorem mem_shuffledNames (stems : List String) (f : String → Pair) (seed : Int)
    (x : String) :
    x ∈ shuffledNames (commonSortedStems stems) f seed ↔
      x ∈ stems.map extract_sample_name := by
  rw [(shuffledNames_perm_keys _ f seed).mem_iff, mem_keys_buildGroups,
    ((commonSortedStems_perm stems).map extract_sample_name).mem_iff]
  simp [List.mem_map, List.mem_dedup]

/-- The truncated test and val counts together never exceed the number of
sample names, given admissible ratios. -/
theorem counts_le (n : Nat) (v t : ℚ) (hv : 0 ≤ v) (ht : 0 ≤ t) (hvt : v + t < 1) :
    (⌊(n : ℚ) * t⌋).toNat + (⌊(n : ℚ) * v⌋).toNat ≤ n := by
  have hn : (0 : ℚ) ≤ (n : ℚ) := Nat.cast_nonneg n
  have ht0 : 0 ≤ ⌊(n : ℚ) * t⌋ := Int.floor_nonneg.mpr (mul_nonneg hn ht)
  have hv0 : 0 ≤ ⌊(n : ℚ) * v⌋ := Int.floor_nonneg.mpr (mul_nonneg hn hv)
  have hsum : ⌊(n : ℚ) * t⌋ + ⌊(n : ℚ) * v⌋ ≤ ⌊(n : ℚ) * t + (n : ℚ) * v⌋ := by
    apply Int.le_floor.mpr
    push_cast
    exact add_le_add (Int.floor_le _) (Int.floor_le _)
  have hle : (n : ℚ) * t + (n : ℚ) * v ≤ (n : ℚ) := by nlinarith
  have hfl : ⌊(n : ℚ) * t + (n : ℚ) * v⌋ ≤ (n : ℤ) := by
    have := Int.floor_le_floor hle
    rwa [Int.floor_natCast] at this
  omega

/-- `main` reaches the splitting phase exactly when the ratios are admissible
and some matched pair exists; the result is then `splitCore` on the sorted
distinct stems. -/
theorem runSplit_ok (g0 : Nat) (stems : List String) (f : String → Pair) (v t : ℚ)
    (seed : Int) (h1 : ¬(v < 0 ∨ t < 0 ∨ 1 ≤ v + t)) (h2 : stems ≠ []) :
    runSplit g0 stems f v t seed =
      .ok (splitCore (commonSortedStems stems) f v t seed) := by
  have hne : ¬commonSortedStems stems = [] := by
    rw [commonSortedStems_eq_nil]
    exact h2
  simp [runSplit, h1, hne]

/-- The shuffled sample-name sequence is the concatenation of its test, val
and train slices. -/
theorem slices_append (names : List String) (nT nV : Nat) :
    names.take nT ++ ((names.drop nT).take nV ++ names.drop (nT + nV)) = names := by
  have h : (names.drop nT).take nV ++ names.drop (nT + nV) = names.drop nT := by
    rw [← List.drop_drop nV nT names, List.take_append_drop]
  rw [h, List.take_append_drop]

/-- C1: for every valid input — a non-empty collection of matched stems,
ratios `v, t ≥ 0` with `v + t < 1`, and a seed — the splitter succeeds and
its three sample-name slices partition the set of sample identities of the
input: their union is the full identity set and they are pairwise
disjoint. -/
theorem C1_partition (g0 : Nat) (stems : List String) (f : String → Pair)
    (v t : ℚ) (seed : Int) (hv : 0 ≤ v) (ht : 0 ≤ t) (hvt : v + t < 1)
    (hne : stems ≠ []) :
    ∃ r : SplitResult, runSplit g0 stems f v t seed = Except.ok r ∧
      (∀ x, (x ∈ r.testNames ∨ x ∈ r.valNames ∨ x ∈ r.trainNames) ↔
        x ∈ stems.map extract_sample_name) ∧
      (∀ x, x ∈ r.testNames → x ∉ r.valNames) ∧
      (∀ x, x ∈ r.testNames → x ∉ r.trainNames) ∧
      (∀ x, x ∈ r.valNames → x ∉ r.trainNames) := by
  have hcond : ¬(v < 0 ∨ t < 0 ∨ 1 ≤ v + t) := by
    push_neg
    exact ⟨hv, ht, hvt⟩
  refine ⟨_, runSplit_ok g0 stems f v t seed hcond hne, ?_, ?_, ?_, ?_⟩ <;>
    simp only [splitCore]
  all_goals
    set common := commonSortedStems stems with hcommon
    set names := shuffledNames common f seed with hnames
    set nT := (⌊(names.length : ℚ) * t⌋).toNat with hnT
    set nV := (⌊(names.length : ℚ) * v⌋).toNat with hnV
  · intro x
    constructor
    · rintro (h | h | h)
      · exact (mem_shuffledNames stems f seed x).mp (List.take_subset _ _ h)
      · exact (mem_shuffledNames stems f seed x).mp
          (List.drop_subset _ _ (List.take_subset _ _ h))
      · exact (mem_shuffledNames stems f seed x).mp (List.drop_subset _ _ h)
    · intro hx
      have hx2 : x ∈ names := (mem_shuffledNames stems f seed x).mpr hx
      rw [← slices_append names nT nV] at hx2
      rcases List.mem_append.mp hx2 with h | h
      · exact Or.inl h
      rcases List.mem_append.mp h with h2 | h2
      · exact Or.inr (Or.inl h2)
      · exact Or.inr (Or.inr h2)
  all_goals
    have hnodup : (names.take nT ++ ((names.drop nT).take nV ++
        names.drop (nT + nV))).Nodup := by
      rw [slices_append]
      exact shuffledNames_nodup common f seed
    rcases List.nodup_append.mp hnodup with ⟨hA, hBC, hdisjA⟩
    rcases List.nodup_append.mp hBC with ⟨hB, hC, hdisjBC⟩
  · exact fun x hx hB => hdisjA hx (List.mem_append.mpr (Or.inl hB))
  · exact fun x hx hC => hdisjA hx (List.mem_append.mpr (Or.inr hC))
  · exact fun x hx hC => hdisjBC hx hC

/-- Where the first `_` from the right sits: either a list has no underscore
at all, or it splits as `pre ++ '_' :: post` with `pre` underscore-free,
and dropping from the right up to the first underscore leaves `'_' :: post`. -/
theorem dropWhile_underscore_cases (r : List Char) :
    (r.dropWhile (fun c => c ≠ '_') = [] ∧ '_' ∉ r) ∨
    (∃ pre post, r = pre ++ '_' :: post ∧
      r.dropWhile (fun c => c ≠ '_') = '_' :: post ∧ '_' ∉ pre) := by
  induction r with
  | nil => exact Or.inl ⟨rfl, List.not_mem_nil _⟩
  | cons c cs ih =>
    by_cases hc : c = '_'
    · subst hc
      refine Or.inr ⟨[], cs, rfl, ?_, List.not_mem_nil _⟩
      rw [List.dropWhile_cons, if_neg (by simp)]
    · rcases ih with ⟨hdrop, hmem⟩ | ⟨pre, post, hr, hdrop, hpre⟩
      · refine Or.inl ⟨?_, ?_⟩
        · rw [List.dropWhile_cons, if_pos (decide_eq_true hc)]
          exact hdrop
        · intro hm
          rcases List.mem_cons.mp hm with hm | hm
          · exact hc hm.symm
          · exact hmem hm
      · refine Or.inr ⟨c :: pre, post, by rw [hr]; rfl, ?_, ?_⟩
        · rw [List.dropWhile_cons, if_pos (decide_eq_true hc)]
          exact hdrop
        · intro hm
          rcases List.mem_cons.mp hm with hm | hm
          · exact hc hm.symm
          · exact hpre hm

/-- `cutLastUnderscore` really is the split on the last underscore: either
the list has no underscore and is returned whole, or the list is the result
followed by `'_'` and an underscore-free variant suffix. -/
theorem cutLastUnderscore_spec (l : List Char) :
    (cutLastUnderscore l = l ∧ '_' ∉ l) ∨
    (∃ variant, l = cutLastUnderscore l ++ '_' :: variant ∧ '_' ∉ variant) := by
  rcases dropWhile_underscore_cases l.reverse with ⟨hdrop, hmem⟩ | ⟨pre, post, hr, hdrop, hpre⟩
  · refine Or.inl ⟨?_, ?_⟩
    · unfold cutLastUnderscore
      rw [hdrop]
    · intro hm
      exact hmem (List.mem_reverse.mpr hm)
  · have hcut : cutLastUnderscore l = post.reverse := by
      unfold cutLastUnderscore
      rw [hdrop]
    refine Or.inr ⟨pre.reverse, ?_, ?_⟩
    · rw [hcut]
      have : l = (pre ++ '_' :: post).reverse := by
        rw [← hr, List.reverse_reverse]
      rw [this]
      simp
    · intro hm
      exact hpre (List.mem_reverse.mp hm)

/-- C2, counterexample: the spec's identity rule operates on the whole stem,
but the code first takes the basename. On the stem `"a/b_1"` the code
derives `"b"` while the spec sentence derives `"a/b"`, so the claim as
stated fails. -/
theorem C2_counterexample :
    extract_sample_name "a/b_1" ≠ specSampleIdentity "a/b_1" ∧
    extract_sample_name "a/b_1" = "b" ∧ specSampleIdentity "a/b_1" = "a/b" := by
  decide

/-- C2, amended: the derived sample identity is the basename of the stem
(its final path component) with a trailing `_<variant>` suffix removed by
splitting on the last underscore; when the basename has no underscore the
identity is the whole basename. For stems without a directory part this is
the spec's rule. The three concrete examples of the claim hold. -/
theorem C2_identity_rule (stem : String) :
    (((extract_sample_name stem).data = basenameChars stem.data ∧
        '_' ∉ basenameChars stem.data) ∨
      (∃ variant, basenameChars stem.data =
          (extract_sample_name stem).data ++ '_' :: variant ∧ '_' ∉ variant)) ∧
    extract_sample_name "3192_010" = "3192" ∧
    extract_sample_name "3192_005" = "3192" ∧
    extract_sample_name "4201" = "4201" := by
  refine ⟨?_, by decide, by decide, by decide⟩
  have hdata : (extract_sample_name stem).data =
      cutLastUnderscore (basenameChars stem.data) := rfl
  rcases cutLastUnderscore_spec (basenameChars stem.data) with ⟨has, hno⟩ |
    ⟨variant, hsplit, hvar⟩
  · exact Or.inl ⟨by rw [hdata, has], hno⟩
  · refine Or.inr ⟨variant, ?_, hvar⟩
    rw [hdata]
    exact hsplit

/-- C3: for every valid input, writing `n` for the number of distinct sample
identities, the splitter assigns `⌊n*t⌋` identities to test, `⌊n*v⌋` to
val, and the remaining `n - n_test - n_val` to train. -/
theorem C3_counts (g0 : Nat) (stems : List String) (f : String → Pair)
    (v t : ℚ) (seed : Int) (hv : 0 ≤ v) (ht : 0 ≤ t) (hvt : v + t < 1)
    (hne : stems ≠ []) :
    ∃ r : SplitResult, runSplit g0 stems f v t seed = Except.ok r ∧
      r.nSamples = ((stems.map extract_sample_name).dedup).length ∧
      (r.testNames.length : ℤ) = ⌊(r.nSamples : ℚ) * t⌋ ∧
      (r.valNames.length : ℤ) = ⌊(r.nSamples : ℚ) * v⌋ ∧
      (r.trainNames.length : ℤ) =
        (r.nSamples : ℤ) - r.testNames.length - r.valNames.length := by
  have hcond : ¬(v < 0 ∨ t < 0 ∨ 1 ≤ v + t) := by
    push_neg
    exact ⟨hv, ht, hvt⟩
  refine ⟨_, runSplit_ok g0 stems f v t seed hcond hne, ?_, ?_, ?_, ?_⟩ <;>
    simp only [splitCore]
  all_goals
    set common := commonSortedStems stems with hcommon
    set names := shuffledNames common f seed with hnames
    set nT := (⌊(names.length : ℚ) * t⌋).toNat with hnT
    set nV := (⌊(names.length : ℚ) * v⌋).toNat with hnV
    have hsum : nT + nV ≤ names.length := counts_le names.length v t hv ht hvt
    have htestlen : (names.take nT).length = nT := by
      rw [List.length_take]
      omega
    have hvallen : ((names.drop nT).take nV).length = nV := by
      rw [List.length_take, List.length_drop]
      omega
  · have hperm : names.Perm ((buildGroups common f).map Prod.fst) :=
      shuffledNames_perm_keys common f seed
    have hkeysnodup := nodup_keys_buildGroups common f
    have hdedupnodup := List.nodup_dedup (stems.map extract_sample_name)
    have hmemiff : ∀ x, x ∈ (buildGroups common f).map Prod.fst ↔
        x ∈ (stems.map extract_sample_name).dedup := by
      intro x
      rw [← hperm.mem_iff, hnames, hcommon, mem_shuffledNames, List.mem_dedup]
    have hperm2 : ((buildGroups common f).map Prod.fst).Perm
        ((stems.map extract_sample_name).dedup) := by
      apply List.perm_of_nodup_nodup_toFinset_eq hkeysnodup hdedupnodup
      ext a
      simp only [List.mem_toFinset]
      exact hmemiff a
    rw [hperm.length_eq, hperm2.length_eq]
  · rw [htestlen, hnT]
    rw [Int.toNat_of_nonneg (Int.floor_nonneg.mpr (mul_nonneg (Nat.cast_nonneg _) ht))]
  · rw [hvallen, hnV]
    rw [Int.toNat_of_nonneg (Int.floor_nonneg.mpr (mul_nonneg (Nat.cast_nonneg _) hv))]
  · rw [htestlen, hvallen, List.length_drop]
    omega

/-- C4: for every valid input, the shuffle permutes the sorted distinct
identities; the first `n_test` of the shuffled sequence are the test
identities, the next `n_val` the val identities, the rest the train
identities; and each split's pair list concatenates, in slice order, the
per-identity pair lists, each of which holds that identity's pairs in the
sorted order of the input stems. -/
theorem C4_slices (g0 : Nat) (stems : List String) (f : String → Pair)
    (v t : ℚ) (seed : Int) (hv : 0 ≤ v) (ht : 0 ≤ t) (hvt : v + t < 1)
    (hne : stems ≠ []) :
    ∃ r : SplitResult, runSplit g0 stems f v t seed = Except.ok r ∧
      (let common := commonSortedStems stems
       let names := shuffledNames common f seed
       let nT := (⌊(names.length : ℚ) * t⌋).toNat
       let nV := (⌊(names.length : ℚ) * v⌋).toNat
       names.Perm (identityList common f) ∧
       r.testNames = names.take nT ∧
       r.valNames = (names.drop nT).take nV ∧
       r.trainNames = names.drop (nT + nV) ∧
       r.testPairs = r.testNames.flatMap
         (fun s => (common.filter (fun st => extract_sample_name st = s)).map f) ∧
       r.valPairs = r.valNames.flatMap
         (fun s => (common.filter (fun st => extract_sample_name st = s)).map f) ∧
       r.trainPairs = r.trainNames.flatMap
         (fun s => (common.filter (fun st => extract_sample_name st = s)).map f)) := by
  have hcond : ¬(v < 0 ∨ t < 0 ∨ 1 ≤ v + t) := by
    push_neg
    exact ⟨hv, ht, hvt⟩
  refine ⟨_, runSplit_ok g0 stems f v t seed hcond hne, ?_⟩
  simp only [splitCore, groupVal_buildGroups]
  exact ⟨shuffleList_perm _ _, by trivial, by trivial, by trivial, by trivial,
    by trivial, by trivial⟩

/-- C5: the splitter fails with `ConfigurationError` exactly when `v < 0`,
`t < 0` or `v + t ≥ 1`; it fails with `EmptyInputError` exactly when the
ratios are admissible but no matched pair exists; and with a zero test
ratio (and otherwise valid input) it succeeds with an empty test list and
does not write `test.txt`. -/
theorem C5_errors (g0 : Nat) (stems : List String) (f : String → Pair) (v t : ℚ)
    (seed : Int) :
    (runSplit g0 stems f v t seed = Except.error SplitError.ConfigurationError ↔
      v < 0 ∨ t < 0 ∨ 1 ≤ v + t) ∧
    (runSplit g0 stems f v t seed = Except.error SplitError.EmptyInputError ↔
      ¬(v < 0 ∨ t < 0 ∨ 1 ≤ v + t) ∧ stems = []) ∧
    (0 ≤ v → v < 1 → stems ≠ [] →
      ∃ r : SplitResult, runSplit g0 stems f v 0 seed = Except.ok r ∧
        r.testPairs = [] ∧ "test.txt" ∉ writtenFiles r) := by
  refine ⟨?_, ?_, ?_⟩
  · by_cases hbad : v < 0 ∨ t < 0 ∨ 1 ≤ v + t
    · simp [runSplit, hbad]
    · by_cases hempty : commonSortedStems stems = []
      · simp [runSplit, hbad, hempty]
      · simp [runSplit, hbad, hempty]
  · by_cases hbad : v < 0 ∨ t < 0 ∨ 1 ≤ v + t
    · simp [runSplit, hbad]
    · by_cases hempty : commonSortedStems stems = []
      · have h0 : stems = [] := (commonSortedStems_eq_nil stems).mp hempty
        subst h0
        simp [runSplit, hbad, commonSortedStems, sortStrings]
      · have hne : ¬stems = [] := by
          rw [← commonSortedStems_eq_nil]
          exact hempty
        simp [runSplit, hbad, hempty, hne]
  · intro hv0 hv1 hne
    have hcond : ¬(v < 0 ∨ (0 : ℚ) < 0 ∨ 1 ≤ v + 0) := by
      push_neg
      refine ⟨hv0, le_refl 0, ?_⟩
      rwa [add_zero]
    have htp : (splitCore (commonSortedStems stems) f v 0 seed).testPairs = [] := by
      simp [splitCore]
    refine ⟨_, runSplit_ok g0 stems f v 0 seed hcond hne, htp, ?_⟩
    by_cases hvis :
        0 < min 20 (splitCore (commonSortedStems stems) f v 0 seed).valPairs.length
    · simp [writtenFiles, htp, hvis]
    · simp [writtenFiles, htp, hvis]

/-- C6: for every valid input, the visualization subset has exactly
`min(20, |val_pairs|)` elements, is a sub-multiset of the validation pair
list (drawn without replacement), every element of it is a validation pair,
and it is drawn from the generator state left behind by the shuffle — no
reseeding happens in between. -/
theorem C6_visualization (g0 : Nat) (stems : List String) (f : String → Pair)
    (v t : ℚ) (seed : Int) (hv : 0 ≤ v) (ht : 0 ≤ t) (hvt : v + t < 1)
    (hne : stems ≠ []) :
    ∃ r : SplitResult, runSplit g0 stems f v t seed = Except.ok r ∧
      r.visPairs.length = min 20 r.valPairs.length ∧
      r.visPairs.Subperm r.valPairs ∧
      (∀ p, p ∈ r.visPairs → p ∈ r.valPairs) ∧
      r.visPairs = (sampleList (postShuffleState (commonSortedStems stems) f seed)
        r.valPairs (min 20 r.valPairs.length)).1 := by
  have hcond : ¬(v < 0 ∨ t < 0 ∨ 1 ≤ v + t) := by
    push_neg
    exact ⟨hv, ht, hvt⟩
  refine ⟨_, runSplit_ok g0 stems f v t seed hcond hne, ?_, ?_, ?_, ?_⟩ <;>
    simp only [splitCore]
  · rw [sampleList_length, min_assoc, min_self]
  · exact sampleList_subperm _ _ _
  · exact fun p hp => (sampleList_subperm _ _ _).subset hp

/-- C7: the split is a deterministic function of the input pair set, the
ratios and the seed. In particular the generator state the process held
before the run (`g0` versus `g1`) is irrelevant, because the splitter
reseeds from `seed`; two runs on the same inputs give identical train, val,
test and vis lists. -/
theorem C7_deterministic (g0 g1 : Nat) (stems : List String) (f : String → Pair)
    (v t : ℚ) (seed : Int) :
    runSplit g0 stems f v t seed = runSplit g1 stems f v t seed := rfl

theorem basenameChars_no_slash (s : List Char) (c : Char)
    (hc : c ∈ basenameChars s) : ¬c = '/' := by
  unfold basenameChars at hc
  have h1 : c ∈ (s.reverse).takeWhile (fun ch => ch ≠ '/') := List.mem_reverse.mp hc
  exact of_decide_eq_true
    (@List.mem_takeWhile_imp Char (fun ch => decide (ch ≠ '/')) s.reverse c h1)

theorem basenameChars_of_no_slash (l : List Char) (h : ∀ c ∈ l, ¬c = '/') :
    basenameChars l = l := by
  unfold basenameChars
  have h1 : (l.reverse).takeWhile (fun ch => ch ≠ '/') = l.reverse :=
    List.takeWhile_eq_self_iff.mpr
      (fun c hc => decide_eq_true (h c (List.mem_reverse.mp hc)))
  rw [h1, List.reverse_reverse]

theorem mem_removeExtChars (s : List Char) (c : Char) (hc : c ∈ removeExtChars s) :
    c ∈ s := by
  unfold removeExtChars at hc
  cases hsplit : (s.reverse).dropWhile (fun ch => ch ≠ '.') with
  | nil => rwa [hsplit] at hc
  | cons hd rest =>
    rw [hsplit] at hc
    dsimp only at hc
    by_cases hany : rest.any (fun ch => ch ≠ '.') = true
    · rw [if_pos hany] at hc
      have h1 : c ∈ rest := List.mem_reverse.mp hc
      have h2 : c ∈ s.reverse := by
        apply (List.dropWhile_sublist (fun ch => ch ≠ '.')).subset
        rw [hsplit]
        exact List.mem_cons.mpr (Or.inr h1)
      exact List.mem_reverse.mp h2
    · rw [if_neg hany] at hc
      exact hc

/-- The leakage verifier derives identities by the same trailing-underscore
rule as the splitter: on any path, its extraction equals the splitter's
extraction applied to the path's basename with the extension removed. -/
theorem verifyExtract_eq (p : String) :
    verifyExtractSampleName p =
      extract_sample_name ⟨removeExtChars (basenameChars p.data)⟩ := by
  have h : basenameChars (removeExtChars (basenameChars p.data)) =
      removeExtChars (basenameChars p.data) :=
    basenameChars_of_no_slash _
      (fun c hc => basenameChars_no_slash p.data c (mem_removeExtChars _ c hc))
  show (⟨cutLastUnderscore (removeExtChars (basenameChars p.data))⟩ : String) =
    ⟨cutLastUnderscore (basenameChars (removeExtChars (basenameChars p.data)))⟩
  rw [h]

/-- C8: the leakage verifier — which reads each split file, takes each
line's first whitespace-separated field, and derives identities by the same
trailing-underscore rule as the splitter (`verifyExtract_eq`) — returns the
non-zero exit value whenever some identity occurs in more than one of the
three splits. -/
theorem C8_leakage (trainC valC testC : Option (List String)) (x : String)
    (h : (x ∈ splitFileNames trainC ∧ x ∈ splitFileNames valC) ∨
      (x ∈ splitFileNames trainC ∧ x ∈ splitFileNames testC) ∨
      (x ∈ splitFileNames valC ∧ x ∈ splitFileNames testC)) :
    verifyMain trainC valC testC = VerifyOutcome.leakage ∧
      ∀ p : String, verifyExtractSampleName p =
        extract_sample_name ⟨removeExtChars (basenameChars p.data)⟩ := by
  refine ⟨?_, fun p => verifyExtract_eq p⟩
  simp only [verifyMain]
  rw [if_pos]
  rcases h with ⟨h1, h2⟩ | ⟨h1, h2⟩ | ⟨h1, h2⟩
  · exact Or.inl ⟨x, h1, h2⟩
  · exact Or.inr (Or.inl ⟨x, h1, h2⟩)
  · exact Or.inr (Or.inr ⟨x, h1, h2⟩)

/-- C10: when all three split files are missing or hold only blank lines,
the verifier does not finish with its clean success result: having found no
overlap it proceeds to the variation statistics, where `max` over the empty
collection of per-identity counts raises, aborting the run. -/
theorem C10_empty_crash (trainC valC testC : Option (List String))
    (h1 : read_split_file trainC = []) (h2 : read_split_file valC = [])
    (h3 : read_split_file testC = []) :
    verifyMain trainC valC testC = VerifyOutcome.crash := by
  simp [verifyMain, splitFileNames, h1, h2, h3]

/-- Modelled from the spec: the normal-map normalization routine (its script
is not among the provided sources). One 8-bit channel value is scaled to
`[-1, 1]` via `value/255*2 - 1`. -/
noncomputable def scaleChannel (x : ℝ) : ℝ := x / 255 * 2 - 1

/-- Modelled from the spec: a pixel's Euclidean norm clamped below by
`1e-6` to avoid division by zero. -/
noncomputable def clampedNorm (x y z : ℝ) : ℝ :=
  max (Real.sqrt (x ^ 2 + y ^ 2 + z ^ 2)) (1 / 1000000)

/-- Modelled from the spec: normalize one pixel of an 8-bit normal map —
scale the three channels, then divide the 3-vector by its clamped Euclidean
norm. -/
noncomputable def normalizePixel (r g b : ℝ) : ℝ × ℝ × ℝ :=
  (scaleChannel r / clampedNorm (scaleChannel r) (scaleChannel g) (scaleChannel b),
   scaleChannel g / clampedNorm (scaleChannel r) (scaleChannel g) (scaleChannel b),
   scaleChannel b / clampedNorm (scaleChannel r) (scaleChannel g) (scaleChannel b))

/-- Euclidean length of a pixel's 3-vector. -/
noncomputable def pixelNorm (p : ℝ × ℝ × ℝ) : ℝ :=
  Real.sqrt (p.1 ^ 2 + p.2.1 ^ 2 + p.2.2 ^ 2)

/-- Modelled from the spec: the whole-image routine applies the pixel map
entrywise, producing a height-by-width-by-3 array of floats. -/
noncomputable def normalizeImage (img : Nat → Nat → ℝ × ℝ × ℝ) (i j : Nat) : ℝ × ℝ × ℝ :=
  normalizePixel (img i j).1 (img i j).2.1 (img i j).2.2

/-- A scaled integer channel is never closer to zero than `1/255`: the
numerator `2*c - 255` is an odd integer, hence at least `1` in magnitude. -/
theorem scaleChannel_sq_ge (c : ℕ) : (1 / 255 : ℝ) ^ 2 ≤ scaleChannel (c : ℝ) ^ 2 := by
  have hk : (1 : ℤ) ≤ (2 * (c : ℤ) - 255) ^ 2 := by
    have hne : (2 * (c : ℤ) - 255) ≠ 0 := by omega
    rcases lt_or_gt_of_ne hne with h | h
    · nlinarith
    · nlinarith
  have hcast : (1 : ℝ) ≤ (((2 * (c : ℤ) - 255 : ℤ) : ℝ)) ^ 2 := by exact_mod_cast hk
  have hsc : scaleChannel (c : ℝ) = ((2 * (c : ℤ) - 255 : ℤ) : ℝ) / 255 := by
    unfold scaleChannel
    push_cast
    ring
  rw [hsc]
  nlinarith [hcast]

/-- Dividing a 3-vector whose first component is at least `1/255` in
magnitude by its clamped norm yields a unit vector: the clamp is inactive
and the division rescales the norm to `1`. -/
theorem normalized_unit (x y z : ℝ) (hx : (1 / 255 : ℝ) ^ 2 ≤ x ^ 2) :
    Real.sqrt ((x / clampedNorm x y z) ^ 2 + (y / clampedNorm x y z) ^ 2 +
      (z / clampedNorm x y z) ^ 2) = 1 := by
  have hS1 : (1 / 255 : ℝ) ^ 2 ≤ x ^ 2 + y ^ 2 + z ^ 2 := by
    nlinarith [sq_nonneg y, sq_nonneg z]
  have hS0 : (0 : ℝ) ≤ x ^ 2 + y ^ 2 + z ^ 2 := by positivity
  have hsqrt : (1 / 255 : ℝ) ≤ Real.sqrt (x ^ 2 + y ^ 2 + z ^ 2) := by
    rw [Real.le_sqrt (by norm_num) hS0]
    exact hS1
  have hsmall : (1 / 1000000 : ℝ) ≤ Real.sqrt (x ^ 2 + y ^ 2 + z ^ 2) :=
    le_trans (by norm_num) hsqrt
  have hclamp : clampedNorm x y z = Real.sqrt (x ^ 2 + y ^ 2 + z ^ 2) :=
    max_eq_left hsmall
  have hspos : (0 : ℝ) < Real.sqrt (x ^ 2 + y ^ 2 + z ^ 2) :=
    lt_of_lt_of_le (by norm_num) hsqrt
  have hsq : Real.sqrt (x ^ 2 + y ^ 2 + z ^ 2) ^ 2 = x ^ 2 + y ^ 2 + z ^ 2 :=
    Real.sq_sqrt hS0
  rw [hclamp]
  have hsum : (x / Real.sqrt (x ^ 2 + y ^ 2 + z ^ 2)) ^ 2 +
      (y / Real.sqrt (x ^ 2 + y ^ 2 + z ^ 2)) ^ 2 +
      (z / Real.sqrt (x ^ 2 + y ^ 2 + z ^ 2)) ^ 2 = 1 := by
    field_simp
  rw [hsum, Real.sqrt_one]

/-- C9: the (spec-modelled) normal-map normalization maps 8-bit channel
values in `[0, 255]` into `[-1, 1]` via `value/255*2 - 1`, and dividing each
pixel's 3-vector by its clamped Euclidean norm produces genuinely
unit-length vectors — for integer channel values the scaled vector's norm is
at least `1/255`, so the `1e-6` clamp never distorts the result. -/
theorem C9_normalization (r g b : ℕ) (hr : r ≤ 255) (hg : g ≤ 255) (hb : b ≤ 255) :
    (∀ c : ℕ, c ≤ 255 → -1 ≤ scaleChannel (c : ℝ) ∧ scaleChannel (c : ℝ) ≤ 1) ∧
    pixelNorm (normalizePixel (r : ℝ) (g : ℝ) (b : ℝ)) = 1 := by
  constructor
  · intro c hc
    unfold scaleChannel
    have h0 : (0 : ℝ) ≤ (c : ℝ) := Nat.cast_nonneg c
    have h255 : (c : ℝ) ≤ 255 := by exact_mod_cast hc
    constructor <;> nlinarith
  · simp only [pixelNorm, normalizePixel]
    exact normalized_unit _ _ _ (scaleChannel_sq_ge r)

/-- Witness for C1 at a concrete input. -/
theorem C1_partition_witness :
    ∃ r : SplitResult, runSplit 0 ["3192_010", "3192_005", "4201"]
        (fun s => (s, s)) 0 0 0 = Except.ok r ∧
      (∀ x, (x ∈ r.testNames ∨ x ∈ r.valNames ∨ x ∈ r.trainNames) ↔
        x ∈ ["3192_010", "3192_005", "4201"].map extract_sample_name) ∧
      (∀ x, x ∈ r.testNames → x ∉ r.valNames) ∧
      (∀ x, x ∈ r.testNames → x ∉ r.trainNames) ∧
      (∀ x, x ∈ r.valNames → x ∉ r.trainNames) :=
  C1_partition 0 ["3192_010", "3192_005", "4201"] (fun s => (s, s)) 0 0 0
    (le_refl 0) (le_refl 0) (by simp) (by simp)

/-- Witness for C3 at a concrete input. -/
theorem C3_counts_witness :
    ∃ r : SplitResult, runSplit 0 ["3192_010", "3192_005", "4201"]
        (fun s => (s, s)) 0 0 0 = Except.ok r ∧
      r.nSamples = ((["3192_010", "3192_005", "4201"].map
        extract_sample_name).dedup).length ∧
      (r.testNames.length : ℤ) = ⌊(r.nSamples : ℚ) * 0⌋ ∧
      (r.valNames.length : ℤ) = ⌊(r.nSamples : ℚ) * 0⌋ ∧
      (r.trainNames.length : ℤ) =
        (r.nSamples : ℤ) - r.testNames.length - r.valNames.length :=
  C3_counts 0 ["3192_010", "3192_005", "4201"] (fun s => (s, s)) 0 0 0
    (le_refl 0) (le_refl 0) (by simp) (by simp)

/-- Witness for C4 at a concrete input. -/
theorem C4_slices_witness :
    ∃ r : SplitResult, runSplit 0 ["3192_010", "3192_005", "4201"]
        (fun s => (s, s)) 0 0 0 = Except.ok r ∧
      (let common := commonSortedStems ["3192_010", "3192_005", "4201"]
       let names := shuffledNames common (fun s => (s, s)) 0
       let nT := (⌊(names.length : ℚ) * 0⌋).toNat
       let nV := (⌊(names.length : ℚ) * 0⌋).toNat
       names.Perm (identityList common (fun s => (s, s))) ∧
       r.testNames = names.take nT ∧
       r.valNames = (names.drop nT).take nV ∧
       r.trainNames = names.drop (nT + nV) ∧
       r.testPairs = r.testNames.flatMap
         (fun s => (common.filter (fun st => extract_sample_name st = s)).map
           (fun s => (s, s))) ∧
       r.valPairs = r.valNames.flatMap
         (fun s => (common.filter (fun st => extract_sample_name st = s)).map
           (fun s => (s, s))) ∧
       r.trainPairs = r.trainNames.flatMap
         (fun s => (common.filter (fun st => extract_sample_name st = s)).map
           (fun s => (s, s)))) :=
  C4_slices 0 ["3192_010", "3192_005", "4201"] (fun s => (s, s)) 0 0 0
    (le_refl 0) (le_refl 0) (by simp) (by simp)

/-- Witness for C5's zero-test-ratio clause at a concrete input. -/
theorem C5_errors_witness :
    ∃ r : SplitResult, runSplit 0 ["a_1"] (fun s => (s, s)) 0 0 0 = Except.ok r ∧
      r.testPairs = [] ∧ "test.txt" ∉ writtenFiles r :=
  (C5_errors 0 ["a_1"] (fun s => (s, s)) 0 0 0).2.2 (le_refl 0) zero_lt_one (by simp)

/-- Witness for C6 at a concrete input. -/
theorem C6_visualization_witness :
    ∃ r : SplitResult, runSplit 0 ["3192_010", "3192_005", "4201"]
        (fun s => (s, s)) (1 / 2) 0 0 = Except.ok r ∧
      r.visPairs.length = min 20 r.valPairs.length ∧
      r.visPairs.Subperm r.valPairs ∧
      (∀ p, p ∈ r.visPairs → p ∈ r.valPairs) ∧
      r.visPairs = (sampleList
        (postShuffleState (commonSortedStems ["3192_010", "3192_005", "4201"])
          (fun s => (s, s)) 0)
        r.valPairs (min 20 r.valPairs.length)).1 :=
  C6_visualization 0 ["3192_010", "3192_005", "4201"] (fun s => (s, s)) (1 / 2) 0 0
    (by norm_num) (le_refl 0) (by norm_num) (by simp)

/-- Witness for C8 at concrete file contents sharing the identity `3192`
between train and val. -/
theorem C8_leakage_witness :
    verifyMain (some ["input/3192_010.png target/3192_010.npy"])
        (some ["input/3192_005.png target/3192_005.npy"]) none =
      VerifyOutcome.leakage ∧
      ∀ p : String, verifyExtractSampleName p =
        extract_sample_name ⟨removeExtChars (basenameChars p.data)⟩ :=
  C8_leakage (some ["input/3192_010.png target/3192_010.npy"])
    (some ["input/3192_005.png target/3192_005.npy"]) none "3192"
    (Or.inl ⟨by decide, by decide⟩)

/-- Witness for C9 at the all-white pixel. -/
theorem C9_normalization_witness :
    pixelNorm (normalizePixel ((255 : ℕ) : ℝ) ((255 : ℕ) : ℝ) ((255 : ℕ) : ℝ)) = 1 :=
  (C9_normalization 255 255 255 (le_refl 255) (le_refl 255) (le_refl 255)).2

/-- Witness for C10: all three split files missing. -/
theorem C10_empty_crash_witness : verifyMain none none none = VerifyOutcome.crash :=
  C10_empty_crash none none none rfl rfl rfl

